import Mathlib

/-!
Verification of the reed-solomon-leopard shard-orchestration layer.

The repository source (src/lib.rs) is a thin binding layer exposing
`supports`, `encode` and `decode` over an external Reed-Solomon engine
(the reed-solomon-simd crate, not part of this repository).  The binding
layer is embedded faithfully below.  The engine itself is modelled from
the specification's consumed interface: a systematic Reed-Solomon code
realised by Lagrange interpolation over the prime field with 65537
elements, in which every byte value embeds injectively.
-/

deriving instance DecidableEq for Except

/-- Prime field used by the model engine.  65537 is prime, and every byte
value (0 to 255) embeds injectively, as does every shard count up to the
engine capability bound 65536. -/
abbrev F : Type := ZMod 65537

instance fact_prime_65537 : Fact (Nat.Prime 65537) := ⟨by norm_num⟩

/-- Model of a Python object crossing the pyo3 boundary: a bytes object
(byte buffers are modelled as lists of naturals), a non-negative int, or
some other object carrying an opaque tag. -/
inductive PyObj : Type where
  | bytes (b : List Nat)
  | int (n : Nat)
  | other (tag : Nat)
deriving DecidableEq

/-- Modelled from the spec: the engine-reported error type consumed by the
binding layer (reed_solomon_simd::Error).  The two variants constructed
directly in src/lib.rs keep their source names (TooFewOriginalShards,
NotEnoughShards); the remaining variants cover the engine failures the
spec describes: infeasible parameters, invalid or mismatched shard sizes,
and out-of-range or duplicate shard indices. -/
inductive Error : Type where
  | TooFewOriginalShards (original_count original_received_count : Nat)
  | TooManyOriginalShards (original_count : Nat)
  | NotEnoughShards (original_count original_received_count recovery_received_count : Nat)
  | UnsupportedShardCount (original_count recovery_count : Nat)
  | InvalidShardSize (shard_bytes : Nat)
  | DifferentShardSize (expected got : Nat)
  | InvalidShardIndex (idx count : Nat)
  | DuplicateShardIndex (idx : Nat)
deriving DecidableEq

/-- The five caller-visible discriminants of the error taxonomy. -/
inductive Discriminant : Type where
  | InputShapeError
  | ParameterError
  | ShardLengthError
  | IndexError
  | InsufficientShardsError
deriving DecidableEq

/-- Modelled from the spec: the error-taxonomy component mapping each
engine-reported failure to its caller-visible discriminant. -/
def Error.discriminant : Error → Discriminant
  | .TooFewOriginalShards _ _ => .InputShapeError
  | .TooManyOriginalShards _ => .InputShapeError
  | .NotEnoughShards _ _ _ => .InsufficientShardsError
  | .UnsupportedShardCount _ _ => .ParameterError
  | .InvalidShardSize _ => .ParameterError
  | .DifferentShardSize _ _ => .ShardLengthError
  | .InvalidShardIndex _ _ => .IndexError
  | .DuplicateShardIndex _ => .IndexError

/-- Human-readable rendering of an engine error, modelling the Display
implementation whose output the binding layer forwards to Python. -/
def Error.message : Error → String
  | .TooFewOriginalShards oc orc =>
      "received fewer original shards than original count: " ++
        Nat.repr orc ++ " of " ++ Nat.repr oc
  | .TooManyOriginalShards oc =>
      "received more original shards than original count " ++ Nat.repr oc
  | .NotEnoughShards oc orc rrc =>
      "not enough shards to reconstruct: original count " ++ Nat.repr oc ++
        ", received " ++ Nat.repr orc ++ " original and " ++ Nat.repr rrc ++ " recovery"
  | .UnsupportedShardCount oc rc =>
      "unsupported shard count combination: " ++ Nat.repr oc ++ " and " ++ Nat.repr rc
  | .InvalidShardSize sb =>
      "invalid shard size " ++ Nat.repr sb ++ ": must be nonzero and even"
  | .DifferentShardSize expected got =>
      "different shard size: expected " ++ Nat.repr expected ++ ", got " ++ Nat.repr got
  | .InvalidShardIndex idx count =>
      "shard index " ++ Nat.repr idx ++ " out of range for count " ++ Nat.repr count
  | .DuplicateShardIndex idx =>
      "duplicate shard index " ++ Nat.repr idx

/-- Model of a pyo3 error value as seen from Python: either a TypeError
raised by a failed downcast or extraction at the boundary, or a
ValueError produced from an engine error.  The real code renders the
engine error to its message string; the model keeps the error value, from
which both the discriminant and the message are derived. -/
inductive PyErr : Type where
  | typeError
  | valueError (e : Error)
deriving DecidableEq

/-- Embedding of the From conversion in src/lib.rs turning an engine
error into a Python ValueError carrying its rendered message. -/
def Error.toPyErr (e : Error) : PyErr := .valueError e

/-- Embedding of downcast to PyBytes: succeeds exactly on bytes objects. -/
def PyObj.downcastBytes : PyObj → Except PyErr (List Nat)
  | .bytes b => .ok b
  | _ => .error .typeError

/-- Embedding of extract to usize: succeeds exactly on int objects. -/
def PyObj.extractNat : PyObj → Except PyErr Nat
  | .int n => .ok n
  | _ => .error .typeError

/-- Total projection of a Python object to its byte content (empty for
non-bytes objects); used only to state theorems about successful calls,
in which every relevant object is a bytes object. -/
def PyObj.asBytesD : PyObj → List Nat
  | .bytes b => b
  | _ => []

/-- Modelled from the spec: numeric evaluation at a point of the Lagrange
interpolation polynomial through a list of (node, value) pairs.  This is
the field arithmetic the engine delegates to. -/
def interpEvalF (pts : List (F × F)) (x : F) : F :=
  ∑ m : Fin pts.length, (pts.get m).2 *
    ∏ k : Fin pts.length,
      if k = m then 1 else (x - (pts.get k).1) * ((pts.get m).1 - (pts.get k).1)⁻¹

/-- Modelled from the spec: engine encoder state, holding the encoding
parameters and the original shards received so far in order. -/
structure ReedSolomonEncoder : Type where
  original_count : Nat
  recovery_count : Nat
  shard_bytes : Nat
  shards : List (List Nat)
deriving DecidableEq

/-- Modelled from the spec: the engine capability query.  The model
supports any combination of at least one original and one recovery shard
with at most 65536 shards in total. -/
def ReedSolomonEncoder.supports (original_count recovery_count : Nat) : Bool :=
  1 ≤ original_count && 1 ≤ recovery_count && original_count + recovery_count ≤ 65536

/-- Modelled from the spec: engine encoder construction.  Fails on an
infeasible count combination, and on a shard size that is zero or odd
(the alignment constraint the engine imposes). -/
def ReedSolomonEncoder.new (original_count recovery_count shard_bytes : Nat) :
    Except Error ReedSolomonEncoder :=
  if ReedSolomonEncoder.supports original_count recovery_count then
    if shard_bytes = 0 ∨ shard_bytes % 2 = 1 then
      .error (.InvalidShardSize shard_bytes)
    else
      .ok ⟨original_count, recovery_count, shard_bytes, []⟩
  else
    .error (.UnsupportedShardCount original_count recovery_count)

/-- Modelled from the spec: adding one original shard to the encoder.
Fails past the declared count or on a length mismatch. -/
def ReedSolomonEncoder.add_original_shard (enc : ReedSolomonEncoder) (shard : List Nat) :
    Except Error ReedSolomonEncoder :=
  if enc.original_count ≤ enc.shards.length then
    .error (.TooManyOriginalShards enc.original_count)
  else if shard.length ≠ enc.shard_bytes then
    .error (.DifferentShardSize enc.shard_bytes shard.length)
  else
    .ok ⟨enc.original_count, enc.recovery_count, enc.shard_bytes, enc.shards ++ [shard]⟩

/-- Field symbol at byte position t of original shard i. -/
def shardSymbolF (shards : List (List Nat)) (i t : Nat) : F :=
  (((shards.getD i []).getD t 0 : Nat) : F)

/-- Interpolation nodes and values carried by the original shards at byte
position t: original index i sits at field node i. -/
def originalPoints (shards : List (List Nat)) (original_count t : Nat) : List (F × F) :=
  (List.range original_count).map (fun (i : Nat) => ((i : F), shardSymbolF shards i t))

/-- Modelled from the spec: recovery shard j, computed byte position by
byte position as the interpolation polynomial of the originals evaluated
at field node original_count + j. -/
def ReedSolomonEncoder.recovery_shard (original_count shard_bytes : Nat)
    (shards : List (List Nat)) (j : Nat) : List Nat :=
  (List.range shard_bytes).map (fun t =>
    (interpEvalF (originalPoints shards original_count t)
      ((original_count + j : Nat) : F)).val)

/-- Modelled from the spec: encoder finalisation.  Fails unless all
declared original shards were received; on success returns the recovery
shards in index order. -/
def ReedSolomonEncoder.encode (enc : ReedSolomonEncoder) :
    Except Error (List (List Nat)) :=
  if enc.shards.length < enc.original_count then
    .error (.TooFewOriginalShards enc.original_count enc.shards.length)
  else
    .ok ((List.range enc.recovery_count).map
      (ReedSolomonEncoder.recovery_shard enc.original_count enc.shard_bytes enc.shards))

/-- Modelled from the spec: engine decoder state, holding the encoding
parameters and the indexed original and recovery shards received so far. -/
structure ReedSolomonDecoder : Type where
  original_count : Nat
  recovery_count : Nat
  shard_bytes : Nat
  originals : List (Nat × List Nat)
  recoveries : List (Nat × List Nat)
deriving DecidableEq

/-- Modelled from the spec: engine decoder construction, with the same
feasibility and shard-size checks as the encoder. -/
def ReedSolomonDecoder.new (original_count recovery_count shard_bytes : Nat) :
    Except Error ReedSolomonDecoder :=
  if ReedSolomonEncoder.supports original_count recovery_count then
    if shard_bytes = 0 ∨ shard_bytes % 2 = 1 then
      .error (.InvalidShardSize shard_bytes)
    else
      .ok ⟨original_count, recovery_count, shard_bytes, [], []⟩
  else
    .error (.UnsupportedShardCount original_count recovery_count)

/-- Modelled from the spec: adding one original shard with its declared
index.  Fails on an out-of-range index, a duplicate index, or a length
mismatch. -/
def ReedSolomonDecoder.add_original_shard (d : ReedSolomonDecoder)
    (idx : Nat) (shard : List Nat) : Except Error ReedSolomonDecoder :=
  if d.original_count ≤ idx then
    .error (.InvalidShardIndex idx d.original_count)
  else if (d.originals.map Prod.fst).contains idx then
    .error (.DuplicateShardIndex idx)
  else if shard.length ≠ d.shard_bytes then
    .error (.DifferentShardSize d.shard_bytes shard.length)
  else
    .ok ⟨d.original_count, d.recovery_count, d.shard_bytes,
      d.originals ++ [(idx, shard)], d.recoveries⟩

/-- Modelled from the spec: adding one recovery shard with its declared
index, with the analogous checks against the recovery count. -/
def ReedSolomonDecoder.add_recovery_shard (d : ReedSolomonDecoder)
    (idx : Nat) (shard : List Nat) : Except Error ReedSolomonDecoder :=
  if d.recovery_count ≤ idx then
    .error (.InvalidShardIndex idx d.recovery_count)
  else if (d.recoveries.map Prod.fst).contains idx then
    .error (.DuplicateShardIndex idx)
  else if shard.length ≠ d.shard_bytes then
    .error (.DifferentShardSize d.shard_bytes shard.length)
  else
    .ok ⟨d.original_count, d.recovery_count, d.shard_bytes,
      d.originals, d.recoveries ++ [(idx, shard)]⟩

/-- Interpolation nodes and values available to the decoder at byte
position t: received original i at field node i, received recovery j at
field node original_count + j. -/
def decoderPoints (d : ReedSolomonDecoder) (t : Nat) : List (F × F) :=
  d.originals.map (fun p => ((p.1 : F), ((p.2.getD t 0 : Nat) : F))) ++
    d.recoveries.map (fun p =>
      (((d.original_count + p.1 : Nat) : F), ((p.2.getD t 0 : Nat) : F)))

/-- Modelled from the spec: decoder finalisation.  Fails unless at least
original_count shards were received in total; on success returns, in
increasing index order, exactly the original shards that were not
received, each reconstructed byte position by byte position by
interpolation through every received shard. -/
def ReedSolomonDecoder.decode (d : ReedSolomonDecoder) :
    Except Error (List (Nat × List Nat)) :=
  if d.originals.length + d.recoveries.length < d.original_count then
    .error (.NotEnoughShards d.original_count d.originals.length d.recoveries.length)
  else
    .ok (((List.range d.original_count).filter
        (fun i => !((d.originals.map Prod.fst).contains i))).map
      (fun i => (i, (List.range d.shard_bytes).map
        (fun t => (interpEvalF (decoderPoints d t) (i : F)).val))))

/-- Embedding of the exported function supports in src/lib.rs: a direct
delegation to the engine capability query. -/
def supports (original_count recovery_count : Nat) : Bool :=
  ReedSolomonEncoder.supports original_count recovery_count

/-- Loop body of the shard-adding loop in encode: downcast the next
object to bytes, then add it to the engine encoder. -/
def addEncoderShardStep (e : ReedSolomonEncoder) (p : PyObj) :
    Except PyErr ReedSolomonEncoder := do
  let shard ← p.downcastBytes
  (e.add_original_shard shard).mapError Error.toPyErr

/-- Embedding of the exported function encode in src/lib.rs.  The input
list holds arbitrary Python objects; each is downcast to bytes as the
source does.  An empty input fails immediately with the locally built
TooFewOriginalShards error; otherwise the shard size is the first shard's
length, an engine encoder is driven over all shards in order, and the
resulting recovery shards are returned in index order. -/
def encode (data : List PyObj) (recovery_count : Nat) :
    Except PyErr (List (List Nat)) :=
  match data with
  | [] => .error (Error.toPyErr (.TooFewOriginalShards data.length 0))
  | first_pyany :: original_rest => do
    let first ← first_pyany.downcastBytes
    let shard_bytes := first.length
    let encoder ← (ReedSolomonEncoder.new data.length recovery_count
      shard_bytes).mapError Error.toPyErr
    let encoder ← (encoder.add_original_shard first).mapError Error.toPyErr
    let encoder ← original_rest.foldlM addEncoderShardStep encoder
    (encoder.encode).mapError Error.toPyErr

/-- Loop body of the original-adding loop in decode: extract the index,
downcast the shard to bytes, then add both to the engine decoder. -/
def addOriginalShardStep (d : ReedSolomonDecoder) (p : PyObj × PyObj) :
    Except PyErr ReedSolomonDecoder := do
  let idx ← p.1.extractNat
  let shard ← p.2.downcastBytes
  (d.add_original_shard idx shard).mapError Error.toPyErr

/-- Loop body of the recovery-adding loop in decode. -/
def addRecoveryShardStep (d : ReedSolomonDecoder) (p : PyObj × PyObj) :
    Except PyErr ReedSolomonDecoder := do
  let idx ← p.1.extractNat
  let shard ← p.2.downcastBytes
  (d.add_recovery_shard idx shard).mapError Error.toPyErr

/-- Embedding of the exported function decode in src/lib.rs.  If the
original mapping is already complete (its entry count equals the declared
original count) an empty mapping is returned at once.  Otherwise at least
one recovery shard is required; the shard size is the first recovery
shard's length; an engine decoder is driven over all original entries and
then all recovery entries, and the reconstructed originals are returned.
Mappings are embedded as association lists in iteration order. -/
def decode (original_count recovery_count : Nat)
    (original recovery : List (PyObj × PyObj)) :
    Except PyErr (List (Nat × List Nat)) :=
  if original.length = original_count then
    .ok []
  else
    match recovery with
    | [] => .error (Error.toPyErr
        (.NotEnoughShards original_count original.length 0))
    | (first_recovery_idx, first_recovery) :: recovery_rest => do
      let first_recovery_bytes ← first_recovery.downcastBytes
      let decoder ← (ReedSolomonDecoder.new original_count recovery_count
        first_recovery_bytes.length).mapError Error.toPyErr
      let decoder ← original.foldlM addOriginalShardStep decoder
      let i0 ← first_recovery_idx.extractNat
      let decoder ← (decoder.add_recovery_shard i0
        first_recovery_bytes).mapError Error.toPyErr
      let decoder ← recovery_rest.foldlM addRecoveryShardStep decoder
      (decoder.decode).mapError Error.toPyErr

/-! ### Helper lemmas about Except and lists -/

theorem except_ok_bind {ε α β : Type} (a : α) (f : α → Except ε β) :
    (Except.ok a >>= f : Except ε β) = f a := rfl

theorem except_error_bind {ε α β : Type} (e : ε) (f : α → Except ε β) :
    (Except.error e >>= f : Except ε β) = Except.error e := rfl

theorem except_bind_ok {ε α β : Type} {x : Except ε α} {f : α → Except ε β} {b : β}
    (h : x >>= f = .ok b) : ∃ a, x = .ok a ∧ f a = .ok b := by
  cases x with
  | ok a => exact ⟨a, rfl, h⟩
  | error e => exact absurd h (by simp [except_error_bind])

theorem except_mapError_ok {ε δ α : Type} {f : ε → δ} {x : Except ε α} {a : α}
    (h : x.mapError f = .ok a) : x = .ok a := by
  cases x with
  | ok b => simpa [Except.mapError] using h
  | error e => simp [Except.mapError] at h

theorem length_le_of_nodup_lt {l : List Nat} {n : Nat} (hnd : l.Nodup)
    (hlt : ∀ k ∈ l, k < n) : l.length ≤ n := by
  have hcard : l.toFinset.card = l.length := List.toFinset_card_of_nodup hnd
  have hsub : l.toFinset ⊆ Finset.range n := by
    intro k hk
    rw [List.mem_toFinset] at hk
    exact Finset.mem_range.mpr (hlt k hk)
  have hle := Finset.card_le_card hsub
  rw [hcard, Finset.card_range] at hle
  exact hle

/-! ### Inversion lemmas for the boundary conversions -/

theorem PyObj.extractNat_ok {p : PyObj} {n : Nat} (h : p.extractNat = .ok n) :
    p = PyObj.int n := by
  cases p <;> simp_all [PyObj.extractNat]

theorem PyObj.downcastBytes_ok {p : PyObj} {b : List Nat} (h : p.downcastBytes = .ok b) :
    p = PyObj.bytes b := by
  cases p <;> simp_all [PyObj.downcastBytes]

/-! ### Inversion lemmas for the engine operations -/

theorem ReedSolomonDecoder.decoder_new_ok {o r sb : Nat} {d : ReedSolomonDecoder}
    (h : ReedSolomonDecoder.new o r sb = .ok d) :
    ReedSolomonEncoder.supports o r = true ∧ sb ≠ 0 ∧ sb % 2 ≠ 1 ∧
      d = ⟨o, r, sb, [], []⟩ := by
  unfold ReedSolomonDecoder.new at h
  split at h
  next hs =>
    split at h
    next => cases h
    next hsb =>
      rw [not_or] at hsb
      cases h
      exact ⟨by simpa using hs, hsb.1, hsb.2, rfl⟩
  next => cases h

theorem ReedSolomonEncoder.encoder_new_ok {o r sb : Nat} {enc : ReedSolomonEncoder}
    (h : ReedSolomonEncoder.new o r sb = .ok enc) :
    ReedSolomonEncoder.supports o r = true ∧ sb ≠ 0 ∧ sb % 2 ≠ 1 ∧
      enc = ⟨o, r, sb, []⟩ := by
  unfold ReedSolomonEncoder.new at h
  split at h
  next hs =>
    split at h
    next => cases h
    next hsb =>
      rw [not_or] at hsb
      cases h
      exact ⟨by simpa using hs, hsb.1, hsb.2, rfl⟩
  next => cases h

theorem ReedSolomonEncoder.encoder_add_original_shard_ok {enc : ReedSolomonEncoder}
    {shard : List Nat} {enc2 : ReedSolomonEncoder}
    (h : enc.add_original_shard shard = .ok enc2) :
    enc.shards.length < enc.original_count ∧ shard.length = enc.shard_bytes ∧
      enc2 = ⟨enc.original_count, enc.recovery_count, enc.shard_bytes,
        enc.shards ++ [shard]⟩ := by
  unfold ReedSolomonEncoder.add_original_shard at h
  split at h
  next => cases h
  next h1 =>
    split at h
    next => cases h
    next h2 =>
      cases h
      exact ⟨Nat.lt_of_not_le h1, by omega, rfl⟩

theorem ReedSolomonDecoder.decoder_add_original_shard_ok {d : ReedSolomonDecoder} {idx : Nat}
    {shard : List Nat} {d2 : ReedSolomonDecoder}
    (h : d.add_original_shard idx shard = .ok d2) :
    idx < d.original_count ∧ idx ∉ d.originals.map Prod.fst ∧
      shard.length = d.shard_bytes ∧
      d2 = ⟨d.original_count, d.recovery_count, d.shard_bytes,
        d.originals ++ [(idx, shard)], d.recoveries⟩ := by
  unfold ReedSolomonDecoder.add_original_shard at h
  split at h
  next => cases h
  next h1 =>
    split at h
    next => cases h
    next h2 =>
      split at h
      next => cases h
      next h3 =>
        cases h
        refine ⟨Nat.lt_of_not_le h1, ?_, by omega, rfl⟩
        simpa using h2

theorem ReedSolomonDecoder.add_recovery_shard_ok {d : ReedSolomonDecoder} {idx : Nat}
    {shard : List Nat} {d2 : ReedSolomonDecoder}
    (h : d.add_recovery_shard idx shard = .ok d2) :
    idx < d.recovery_count ∧ idx ∉ d.recoveries.map Prod.fst ∧
      shard.length = d.shard_bytes ∧
      d2 = ⟨d.original_count, d.recovery_count, d.shard_bytes,
        d.originals, d.recoveries ++ [(idx, shard)]⟩ := by
  unfold ReedSolomonDecoder.add_recovery_shard at h
  split at h
  next => cases h
  next h1 =>
    split at h
    next => cases h
    next h2 =>
      split at h
      next => cases h
      next h3 =>
        cases h
        refine ⟨Nat.lt_of_not_le h1, ?_, by omega, rfl⟩
        simpa using h2

theorem addOriginalShardStep_ok {d : ReedSolomonDecoder} {p : PyObj × PyObj}
    {d2 : ReedSolomonDecoder} (h : addOriginalShardStep d p = .ok d2) :
    ∃ idx shard, p.1 = PyObj.int idx ∧ p.2 = PyObj.bytes shard ∧
      d.add_original_shard idx shard = .ok d2 := by
  unfold addOriginalShardStep at h
  obtain ⟨idx, hidx, h⟩ := except_bind_ok h
  obtain ⟨shard, hshard, h⟩ := except_bind_ok h
  exact ⟨idx, shard, PyObj.extractNat_ok hidx, PyObj.downcastBytes_ok hshard,
    except_mapError_ok h⟩

theorem addRecoveryShardStep_ok {d : ReedSolomonDecoder} {p : PyObj × PyObj}
    {d2 : ReedSolomonDecoder} (h : addRecoveryShardStep d p = .ok d2) :
    ∃ idx shard, p.1 = PyObj.int idx ∧ p.2 = PyObj.bytes shard ∧
      d.add_recovery_shard idx shard = .ok d2 := by
  unfold addRecoveryShardStep at h
  obtain ⟨idx, hidx, h⟩ := except_bind_ok h
  obtain ⟨shard, hshard, h⟩ := except_bind_ok h
  exact ⟨idx, shard, PyObj.extractNat_ok hidx, PyObj.downcastBytes_ok hshard,
    except_mapError_ok h⟩

theorem addEncoderShardStep_ok {enc : ReedSolomonEncoder} {p : PyObj}
    {enc2 : ReedSolomonEncoder} (h : addEncoderShardStep enc p = .ok enc2) :
    ∃ shard, p = PyObj.bytes shard ∧ enc.add_original_shard shard = .ok enc2 := by
  unfold addEncoderShardStep at h
  obtain ⟨shard, hshard, h⟩ := except_bind_ok h
  exact ⟨shard, PyObj.downcastBytes_ok hshard, except_mapError_ok h⟩

/-! ### Behaviour of the shard-adding loops -/

theorem foldl_addOriginalShardStep_ok :
    ∀ (l : List (PyObj × PyObj)) (d d2 : ReedSolomonDecoder),
      l.foldlM addOriginalShardStep d = .ok d2 →
      d2.original_count = d.original_count ∧
      d2.recovery_count = d.recovery_count ∧
      d2.shard_bytes = d.shard_bytes ∧
      d2.recoveries = d.recoveries ∧
      d2.originals.length = d.originals.length + l.length ∧
      (∀ k, k ∈ d.originals.map Prod.fst → k ∈ d2.originals.map Prod.fst) ∧
      (∀ p ∈ l, ∀ i : Nat, p.1 = PyObj.int i → i ∈ d2.originals.map Prod.fst) ∧
      (((d.originals.map Prod.fst).Nodup ∧
          (∀ k ∈ d.originals.map Prod.fst, k < d.original_count)) →
        ((d2.originals.map Prod.fst).Nodup ∧
          (∀ k ∈ d2.originals.map Prod.fst, k < d2.original_count))) := by
  intro l
  induction l with
  | nil =>
    intro d d2 h
    rw [List.foldlM_nil] at h
    cases h
    simp
  | cons p l ih =>
    intro d d2 h
    rw [List.foldlM_cons] at h
    obtain ⟨dmid, hstep, hfold⟩ := except_bind_ok h
    obtain ⟨idx, shard, hp1, hp2, hadd⟩ := addOriginalShardStep_ok hstep
    obtain ⟨hidx, hdup, hlen, hdm⟩ := ReedSolomonDecoder.decoder_add_original_shard_ok hadd
    obtain ⟨ho, hr, hsb, hrec, hl, hmono, hall, hinv⟩ := ih dmid d2 hfold
    subst hdm
    refine ⟨ho, hr, hsb, hrec, by simp at hl ⊢; omega, ?_, ?_, ?_⟩
    · intro k hk
      exact hmono k (by simp [hk])
    · intro q hq i hqi
      rw [List.mem_cons] at hq
      rcases hq with hq | hq
      · subst hq
        rw [hp1] at hqi
        cases hqi
        exact hmono idx (by simp)
      · exact hall q hq i hqi
    · intro hdinv
      apply hinv
      constructor
      · simp only [List.map_append]
        simp [List.nodup_append, hdinv.1, hdup]
      · intro k hk
        simp only [List.map_append, List.mem_append] at hk
        rcases hk with hk | hk
        · exact hdinv.2 k hk
        · simp at hk
          subst hk
          exact hidx

theorem foldl_addRecoveryShardStep_ok :
    ∀ (l : List (PyObj × PyObj)) (d d2 : ReedSolomonDecoder),
      l.foldlM addRecoveryShardStep d = .ok d2 →
      d2.original_count = d.original_count ∧
      d2.recovery_count = d.recovery_count ∧
      d2.shard_bytes = d.shard_bytes ∧
      d2.originals = d.originals := by
  intro l
  induction l with
  | nil =>
    intro d d2 h
    rw [List.foldlM_nil] at h
    cases h
    simp
  | cons p l ih =>
    intro d d2 h
    rw [List.foldlM_cons] at h
    obtain ⟨dmid, hstep, hfold⟩ := except_bind_ok h
    obtain ⟨idx, shard, hp1, hp2, hadd⟩ := addRecoveryShardStep_ok hstep
    obtain ⟨hidx, hdup, hlen, hdm⟩ := ReedSolomonDecoder.add_recovery_shard_ok hadd
    obtain ⟨ho, hr, hsb, horig⟩ := ih dmid d2 hfold
    subst hdm
    exact ⟨ho, hr, hsb, horig⟩

/-! ### Claim C2: decode fast path -/

/-- C2: Decode fast path: for every call in which the number of entries in
the original mapping equals original_count, decode returns an empty
mapping immediately, regardless of the content of the recovery mapping
(including an empty one); the engine branch of the definition is never
entered, so the call cannot fail. -/
theorem c2_decode_fast_path (original_count recovery_count : Nat)
    (original recovery : List (PyObj × PyObj))
    (h : original.length = original_count) :
    decode original_count recovery_count original recovery = .ok [] := by
  unfold decode
  rw [if_pos h]

theorem c2_decode_fast_path_witness :
    ([(PyObj.int 0, PyObj.bytes [1, 2]), (PyObj.int 1, PyObj.bytes [3, 4])] :
        List (PyObj × PyObj)).length = 2 ∧
      decode 2 7 [(PyObj.int 0, PyObj.bytes [1, 2]), (PyObj.int 1, PyObj.bytes [3, 4])]
        [] = .ok [] :=
  ⟨by decide, c2_decode_fast_path 2 7 _ [] (by decide)⟩

/-! ### Claim C3: empty-input encode failure -/

/-- C3: Empty-input encode failure: for every recovery_count, encoding an
empty shard list fails with the engine error classified as
InputShapeError whose payload reports original_received_count = 0, and
returns no result. -/
theorem c3_encode_empty_input (recovery_count : Nat) :
    encode [] recovery_count =
      .error (Error.toPyErr (.TooFewOriginalShards 0 0)) ∧
      (Error.TooFewOriginalShards 0 0).discriminant = .InputShapeError :=
  ⟨rfl, rfl⟩

/-! ### Claim C4: starvation failure -/

/-- C4: Starvation failure: whenever the original mapping has fewer
entries than original_count and the recovery mapping is empty, decode
fails with the engine error classified as InsufficientShardsError
carrying original_count, the received original count, and
recovery_received_count = 0. -/
theorem c4_decode_starvation (original_count recovery_count : Nat)
    (original : List (PyObj × PyObj))
    (h : original.length < original_count) :
    decode original_count recovery_count original [] =
      .error (Error.toPyErr
        (.NotEnoughShards original_count original.length 0)) ∧
      (Error.NotEnoughShards original_count original.length 0).discriminant =
        .InsufficientShardsError := by
  refine ⟨?_, rfl⟩
  unfold decode
  rw [if_neg (Nat.ne_of_lt h)]

theorem c4_decode_starvation_witness :
    ([(PyObj.int 0, PyObj.bytes [1, 2]), (PyObj.int 1, PyObj.bytes [3, 4])] :
        List (PyObj × PyObj)).length < 4 ∧
      decode 4 2 [(PyObj.int 0, PyObj.bytes [1, 2]), (PyObj.int 1, PyObj.bytes [3, 4])]
        [] = .error (Error.toPyErr (.NotEnoughShards 4 2 0)) :=
  ⟨by decide, (c4_decode_starvation 4 2 _ (by decide)).1⟩

/-! ### Claim C9: purity and determinism of supports -/

/-- C9: Purity and determinism of supports: supports is a total function
into Bool, so it always returns a boolean and never raises, and any two
calls with identical arguments return identical results. -/
theorem c9_supports_pure (original_count recovery_count : Nat) :
    (supports original_count recovery_count = true ∨
      supports original_count recovery_count = false) ∧
    ∀ b1 b2 : Bool, supports original_count recovery_count = b1 →
      supports original_count recovery_count = b2 → b1 = b2 := by
  constructor
  · exact Bool.eq_false_or_eq_true _
  · intro b1 b2 h1 h2
    exact h1.symm.trans h2

theorem c9_supports_pure_witness :
    (supports 1 1 = true ∨ supports 1 1 = false) ∧ true = true :=
  ⟨(c9_supports_pure 1 1).1,
    (c9_supports_pure 1 1).2 true true (by decide) (by decide)⟩

/-! ### Claim C10: the fast-path guard inspects only cardinality -/

/-- C10: the decode fast path is taken exactly on entry-count equality:
with original_count entries it returns an empty mapping even when every
key is an out-of-range index and every value is not a bytes object, and
with more than original_count entries the fast path is not taken and the
call, proceeding towards the engine, always fails. -/
theorem c10_fast_path_guard_cardinality_only :
    (∀ original_count recovery_count : Nat, ∀ recovery : List (PyObj × PyObj),
      decode original_count recovery_count
        ((List.range original_count).map
          (fun i => (PyObj.int (original_count + i), PyObj.other i))) recovery =
        .ok []) ∧
    (∀ original_count recovery_count : Nat,
      ∀ original recovery : List (PyObj × PyObj),
      original_count < original.length →
      ∃ e, decode original_count recovery_count original recovery = .error e) := by
  constructor
  · intro original_count recovery_count recovery
    unfold decode
    rw [if_pos (by simp)]
  · intro original_count recovery_count original recovery h
    unfold decode
    rw [if_neg (by omega)]
    cases recovery with
    | nil => exact ⟨_, rfl⟩
    | cons q rest =>
      obtain ⟨k0, v0⟩ := q
      cases hv : v0.downcastBytes with
      | error e =>
        exact ⟨e, by simp only [hv, except_error_bind]⟩
      | ok fb =>
        cases hnew : ReedSolomonDecoder.new original_count recovery_count fb.length with
        | error e =>
          refine ⟨Error.toPyErr e, ?_⟩
          simp only [hv, except_ok_bind, hnew, Except.mapError, except_error_bind]
        | ok dec0 =>
          cases hfold : original.foldlM addOriginalShardStep dec0 with
          | error e =>
            refine ⟨e, ?_⟩
            simp only [hv, except_ok_bind, hnew, Except.mapError, except_error_bind,
              hfold]
          | ok d2 =>
            exfalso
            obtain ⟨hsup, hsb0, hsb1, hdec0⟩ := ReedSolomonDecoder.decoder_new_ok hnew
            obtain ⟨ho, -, -, -, hl, -, -, hinv⟩ :=
              foldl_addOriginalShardStep_ok original dec0 d2 hfold
            subst hdec0
            simp only at ho hl
            obtain ⟨hnd, hbound⟩ := hinv (by simp)
            have hle : (d2.originals.map Prod.fst).length ≤ d2.original_count :=
              length_le_of_nodup_lt hnd hbound
            rw [List.length_map] at hle
            omega

theorem c10_fast_path_guard_cardinality_only_witness :
    decode 2 1 [(PyObj.int 2, PyObj.other 0), (PyObj.int 3, PyObj.other 1)]
        [(PyObj.int 0, PyObj.bytes [1, 2])] = .ok [] ∧
    ∃ e, decode 1 1
        [(PyObj.int 0, PyObj.bytes [1, 2]), (PyObj.int 0, PyObj.bytes [1, 2])] [] =
        .error e :=
  ⟨c10_fast_path_guard_cardinality_only.1 2 1 _,
    c10_fast_path_guard_cardinality_only.2 1 1 _ [] (by decide)⟩

/-! ### Inversion lemmas for the finalisation steps and whole calls -/

theorem ReedSolomonDecoder.decode_ok {d : ReedSolomonDecoder}
    {res : List (Nat × List Nat)} (h : d.decode = .ok res) :
    d.original_count ≤ d.originals.length + d.recoveries.length ∧
    res = ((List.range d.original_count).filter
        (fun i => !((d.originals.map Prod.fst).contains i))).map
      (fun (i : Nat) => (i, (List.range d.shard_bytes).map
        (fun t => (interpEvalF (decoderPoints d t) (i : F)).val))) := by
  unfold ReedSolomonDecoder.decode at h
  split at h
  next => cases h
  next h1 =>
    cases h
    exact ⟨by omega, rfl⟩

theorem ReedSolomonEncoder.encode_ok {enc : ReedSolomonEncoder}
    {R : List (List Nat)} (h : enc.encode = .ok R) :
    enc.original_count ≤ enc.shards.length ∧
    R = (List.range enc.recovery_count).map
      (ReedSolomonEncoder.recovery_shard enc.original_count enc.shard_bytes
        enc.shards) := by
  unfold ReedSolomonEncoder.encode at h
  split at h
  next => cases h
  next h1 =>
    cases h
    exact ⟨by omega, rfl⟩

theorem foldl_addEncoderShardStep_ok :
    ∀ (l : List PyObj) (enc enc2 : ReedSolomonEncoder),
      l.foldlM addEncoderShardStep enc = .ok enc2 →
      enc2.original_count = enc.original_count ∧
      enc2.recovery_count = enc.recovery_count ∧
      enc2.shard_bytes = enc.shard_bytes ∧
      enc2.shards = enc.shards ++ l.map PyObj.asBytesD ∧
      ∀ p ∈ l, ∃ b, p = PyObj.bytes b ∧ b.length = enc.shard_bytes := by
  intro l
  induction l with
  | nil =>
    intro enc enc2 h
    rw [List.foldlM_nil] at h
    cases h
    simp
  | cons p l ih =>
    intro enc enc2 h
    rw [List.foldlM_cons] at h
    obtain ⟨encmid, hstep, hfold⟩ := except_bind_ok h
    obtain ⟨b, hp, hadd⟩ := addEncoderShardStep_ok hstep
    obtain ⟨hroom, hblen, hmid⟩ := ReedSolomonEncoder.encoder_add_original_shard_ok hadd
    obtain ⟨ho, hr, hsb, hsh, hshape⟩ := ih encmid enc2 hfold
    subst hmid
    simp only at ho hr hsb hsh hshape
    refine ⟨ho, hr, hsb, ?_, ?_⟩
    · rw [hsh, hp]
      simp [PyObj.asBytesD]
    · intro q hq
      rw [List.mem_cons] at hq
      rcases hq with hq | hq
      · exact ⟨b, by rw [hq, hp], hblen⟩
      · exact hshape q hq

/-- Full inversion of a successful encode call over the byte contents of
its input. -/
theorem encode_ok_inv {data : List PyObj} {recovery_count : Nat}
    {R : List (List Nat)} (h : encode data recovery_count = .ok R) :
    ∃ first rest, data = PyObj.bytes first :: rest ∧
      ReedSolomonEncoder.supports data.length recovery_count = true ∧
      first.length ≠ 0 ∧ first.length % 2 ≠ 1 ∧
      (∀ p ∈ data, ∃ b, p = PyObj.bytes b ∧ b.length = first.length) ∧
      R = (List.range recovery_count).map
        (ReedSolomonEncoder.recovery_shard data.length first.length
          (data.map PyObj.asBytesD)) := by
  cases data with
  | nil => cases h
  | cons p0 rest =>
    unfold encode at h
    obtain ⟨first, hfirst, h⟩ := except_bind_ok h
    have hp0 := PyObj.downcastBytes_ok hfirst
    obtain ⟨enc0, hnew0, h⟩ := except_bind_ok h
    have hnew := except_mapError_ok hnew0
    obtain ⟨hsup, hsb0, hsb1, henc0⟩ := ReedSolomonEncoder.encoder_new_ok hnew
    obtain ⟨enc1, hadd0, h⟩ := except_bind_ok h
    have hadd := except_mapError_ok hadd0
    subst henc0
    obtain ⟨-, hflen, henc1⟩ := ReedSolomonEncoder.encoder_add_original_shard_ok hadd
    subst henc1
    obtain ⟨enc2, hfoldE, h⟩ := except_bind_ok h
    obtain ⟨ho2, hr2, hsb2, hsh2, hshape⟩ :=
      foldl_addEncoderShardStep_ok rest _ enc2 hfoldE
    simp only at ho2 hr2 hsb2 hsh2 hshape
    have hfin := except_mapError_ok h
    obtain ⟨-, hR⟩ := ReedSolomonEncoder.encode_ok hfin
    refine ⟨first, rest, by rw [hp0], hsup, hsb0, hsb1, ?_, ?_⟩
    · intro q hq
      rw [List.mem_cons] at hq
      rcases hq with hq | hq
      · exact ⟨first, by rw [hq, hp0], rfl⟩
      · exact hshape q hq
    · rw [hR, ho2, hr2, hsb2, hsh2]
      rw [hp0]
      simp [PyObj.asBytesD]

/-- Full inversion of a successful decode call that takes the engine
branch: the final decoder state it drives the engine through. -/
theorem decode_engine_ok {o rc : Nat} {original : List (PyObj × PyObj)}
    {k0 v0 : PyObj} {rest : List (PyObj × PyObj)} {res : List (Nat × List Nat)}
    (hne : original.length ≠ o)
    (hok : decode o rc original ((k0, v0) :: rest) = .ok res) :
    ∃ fb i0 d2 d3 d4,
      v0 = PyObj.bytes fb ∧
      ReedSolomonEncoder.supports o rc = true ∧ fb.length ≠ 0 ∧
      fb.length % 2 ≠ 1 ∧
      original.foldlM addOriginalShardStep
        ⟨o, rc, fb.length, [], []⟩ = .ok d2 ∧
      k0 = PyObj.int i0 ∧
      d2.add_recovery_shard i0 fb = .ok d3 ∧
      rest.foldlM addRecoveryShardStep d3 = .ok d4 ∧
      d4.decode = .ok res := by
  unfold decode at hok
  rw [if_neg hne] at hok
  obtain ⟨fb, hfb, hok⟩ := except_bind_ok hok
  have hv0 := PyObj.downcastBytes_ok hfb
  obtain ⟨dec0, hnew0, hok⟩ := except_bind_ok hok
  have hnew := except_mapError_ok hnew0
  obtain ⟨hsup, hsb0, hsb1, hdec0⟩ := ReedSolomonDecoder.decoder_new_ok hnew
  subst hdec0
  obtain ⟨d2, hfold, hok⟩ := except_bind_ok hok
  obtain ⟨i0, hi0, hok⟩ := except_bind_ok hok
  have hk0 := PyObj.extractNat_ok hi0
  obtain ⟨d3, hadd0, hok⟩ := except_bind_ok hok
  have hadd := except_mapError_ok hadd0
  obtain ⟨d4, hfold2, hok⟩ := except_bind_ok hok
  have hfin := except_mapError_ok hok
  exact ⟨fb, i0, d2, d3, d4, hv0, hsup, hsb0, hsb1, hfold, hk0, hadd, hfold2, hfin⟩

/-! ### Claim C5: no echo of known shards -/

/-- C5: No echo of known shards: for every successful decode call, no
index present in the caller-supplied original mapping appears among the
indices of the returned mapping; only shards that needed reconstruction
are returned. -/
theorem c5_no_echo (original_count recovery_count : Nat)
    (original recovery : List (PyObj × PyObj)) (res : List (Nat × List Nat))
    (i : Nat) (v : PyObj)
    (hok : decode original_count recovery_count original recovery = .ok res)
    (hmem : (PyObj.int i, v) ∈ original) :
    i ∉ res.map Prod.fst := by
  by_cases hfast : original.length = original_count
  · unfold decode at hok
    rw [if_pos hfast] at hok
    cases hok
    simp
  · cases recovery with
    | nil =>
      unfold decode at hok
      rw [if_neg hfast] at hok
      cases hok
    | cons q rest =>
      obtain ⟨k0, v0⟩ := q
      obtain ⟨fb, i0, d2, d3, d4, hv0, hsup, hsb0, hsb1, hfold, hk0, hadd,
        hfold2, hdec⟩ := decode_engine_ok hfast hok
      obtain ⟨-, -, -, -, -, -, hall, -⟩ :=
        foldl_addOriginalShardStep_ok original _ d2 hfold
      have hi : i ∈ d2.originals.map Prod.fst := hall _ hmem i rfl
      obtain ⟨-, -, -, hd3⟩ := ReedSolomonDecoder.add_recovery_shard_ok hadd
      obtain ⟨-, -, -, hd4⟩ := foldl_addRecoveryShardStep_ok rest d3 d4 hfold2
      obtain ⟨-, hres⟩ := ReedSolomonDecoder.decode_ok hdec
      subst hres
      subst hd3
      simp only at hd4
      intro hcontra
      rw [List.map_map, List.mem_map] at hcontra
      obtain ⟨j, hjmem, hji⟩ := hcontra
      simp at hji
      subst hji
      rw [List.mem_filter] at hjmem
      have hjfilter := hjmem.2
      rw [hd4] at hjfilter
      rw [show ((List.map Prod.fst d2.originals).contains j) = true from
        List.elem_iff.mpr hi] at hjfilter
      simp at hjfilter

theorem c5_no_echo_witness :
    (0 : Nat) ∉ (([] : List (Nat × List Nat)).map Prod.fst) :=
  c5_no_echo 1 5 [(PyObj.int 0, PyObj.bytes [1, 2])] [] [] 0 (PyObj.bytes [1, 2])
    (by decide) (by decide)

/-! ### Claim C6: encode output shape -/

theorem getD_range_map {α : Type} (f : Nat → α) (n j : Nat) (d : α) (hj : j < n) :
    ((List.range n).map f).getD j d = f j := by
  have hlen : j < ((List.range n).map f).length := by simpa using hj
  rw [List.getD_eq_getElem _ _ hlen]
  simp

/-- C6: Encode output shape: every successful encode call returns exactly
recovery_count shards, and the shard at each position j is the engine's
recovery shard of index j, so the output is extracted in index order. -/
theorem c6_encode_output_shape (data : List PyObj) (recovery_count : Nat)
    (R : List (List Nat)) (h : encode data recovery_count = .ok R) :
    R.length = recovery_count ∧
    ∀ j, j < recovery_count → R.getD j [] =
      ReedSolomonEncoder.recovery_shard data.length
        ((data.headD (PyObj.bytes [])).asBytesD).length
        (data.map PyObj.asBytesD) j := by
  obtain ⟨first, rest, hdata, hsup, h0, h1, hlen, hR⟩ := encode_ok_inv h
  subst hR
  constructor
  · simp
  · intro j hj
    rw [getD_range_map _ _ _ _ hj]
    subst hdata
    simp [PyObj.asBytesD]

theorem c6_encode_output_shape_witness :
    ([[7, 8], [7, 8]] : List (List Nat)).length = 2 ∧
    ([[7, 8], [7, 8]] : List (List Nat)).getD 1 [] =
      ReedSolomonEncoder.recovery_shard 1 2 [[7, 8]] 1 :=
  ⟨(c6_encode_output_shape [PyObj.bytes [7, 8]] 2 [[7, 8], [7, 8]] (by decide)).1,
    (c6_encode_output_shape [PyObj.bytes [7, 8]] 2 [[7, 8], [7, 8]] (by decide)).2
      1 (by decide)⟩

/-! ### Claim C7: shard-length determination -/

theorem foldl_addOriginalShardStep_shape :
    ∀ (l : List (PyObj × PyObj)) (d d2 : ReedSolomonDecoder),
      l.foldlM addOriginalShardStep d = .ok d2 →
      ∀ p ∈ l, ∃ idx shard, p.1 = PyObj.int idx ∧ p.2 = PyObj.bytes shard ∧
        shard.length = d.shard_bytes := by
  intro l
  induction l with
  | nil =>
    intro d d2 h p hp
    exact absurd hp (List.not_mem_nil p)
  | cons q rest ih =>
    intro d d2 h p hp
    rw [List.foldlM_cons] at h
    obtain ⟨dmid, hstep, hfold⟩ := except_bind_ok h
    obtain ⟨idx, shard, hp1, hp2, hadd⟩ := addOriginalShardStep_ok hstep
    obtain ⟨hidx, hdup, hlen, hdm⟩ := ReedSolomonDecoder.decoder_add_original_shard_ok hadd
    rw [List.mem_cons] at hp
    rcases hp with hp | hp
    · subst hp
      exact ⟨idx, shard, hp1, hp2, hlen⟩
    · obtain ⟨idx2, shard2, ha, hb, hc⟩ := ih dmid d2 hfold p hp
      refine ⟨idx2, shard2, ha, hb, ?_⟩
      rw [hc, hdm]

theorem foldl_addRecoveryShardStep_shape :
    ∀ (l : List (PyObj × PyObj)) (d d2 : ReedSolomonDecoder),
      l.foldlM addRecoveryShardStep d = .ok d2 →
      ∀ p ∈ l, ∃ idx shard, p.1 = PyObj.int idx ∧ p.2 = PyObj.bytes shard ∧
        shard.length = d.shard_bytes := by
  intro l
  induction l with
  | nil =>
    intro d d2 h p hp
    exact absurd hp (List.not_mem_nil p)
  | cons q rest ih =>
    intro d d2 h p hp
    rw [List.foldlM_cons] at h
    obtain ⟨dmid, hstep, hfold⟩ := except_bind_ok h
    obtain ⟨idx, shard, hp1, hp2, hadd⟩ := addRecoveryShardStep_ok hstep
    obtain ⟨hidx, hdup, hlen, hdm⟩ := ReedSolomonDecoder.add_recovery_shard_ok hadd
    rw [List.mem_cons] at hp
    rcases hp with hp | hp
    · subst hp
      exact ⟨idx, shard, hp1, hp2, hlen⟩
    · obtain ⟨idx2, shard2, ha, hb, hc⟩ := ih dmid d2 hfold p hp
      refine ⟨idx2, shard2, ha, hb, ?_⟩
      rw [hc, hdm]

/-- C7: Shard-length determination: in encode the shard size is the first
shard's length and every shard of a successful call matches it, with a
mismatch surfaced as the ShardLengthError-classified engine error; in
decode (on the engine branch) the shard size is the length of the first
recovery shard encountered in the iteration order of the recovery
mapping, and every original and recovery shard of a successful call
matches that length. -/
theorem c7_shard_bytes_determination :
    (∀ (data : List PyObj) (recovery_count : Nat) (R : List (List Nat)),
      encode data recovery_count = .ok R →
      ∀ p ∈ data, p.asBytesD.length =
        ((data.headD (PyObj.bytes [])).asBytesD).length) ∧
    (encode [PyObj.bytes [1, 2], PyObj.bytes [1, 2, 3, 4]] 1 =
        .error (Error.toPyErr (.DifferentShardSize 2 4)) ∧
      (Error.DifferentShardSize 2 4).discriminant = .ShardLengthError) ∧
    (∀ (original_count recovery_count : Nat)
      (original : List (PyObj × PyObj)) (k0 v0 : PyObj)
      (rest : List (PyObj × PyObj)) (res : List (Nat × List Nat)),
      original.length ≠ original_count →
      decode original_count recovery_count original ((k0, v0) :: rest) = .ok res →
      (∀ p ∈ original, (p.2).asBytesD.length = v0.asBytesD.length) ∧
      (∀ p ∈ rest, (p.2).asBytesD.length = v0.asBytesD.length)) := by
  refine ⟨?_, ⟨by decide, rfl⟩, ?_⟩
  · intro data rc R h p hp
    obtain ⟨first, rest, hdata, -, -, -, hlen, -⟩ := encode_ok_inv h
    obtain ⟨b, hb, hblen⟩ := hlen p hp
    subst hdata
    rw [hb]
    simp [PyObj.asBytesD, hblen]
  · intro o rc original k0 v0 rest res hne hok
    obtain ⟨fb, i0, d2, d3, d4, hv0, -, -, -, hfold, hk0, hadd, hfold2, -⟩ :=
      decode_engine_ok hne hok
    subst hv0
    obtain ⟨-, -, hsb2, -, -, -, -, -⟩ :=
      foldl_addOriginalShardStep_ok original _ d2 hfold
    simp only at hsb2
    constructor
    · intro p hp
      obtain ⟨idx, shard, -, hp2, hlen⟩ :=
        foldl_addOriginalShardStep_shape original _ d2 hfold p hp
      rw [hp2]
      simp only at hlen
      simpa [PyObj.asBytesD] using hlen
    · intro p hp
      obtain ⟨-, -, -, hd3⟩ := ReedSolomonDecoder.add_recovery_shard_ok hadd
      obtain ⟨idx, shard, -, hp2, hlen⟩ :=
        foldl_addRecoveryShardStep_shape rest d3 d4 hfold2 p hp
      rw [hp2]
      rw [hd3] at hlen
      simp only at hlen
      rw [hsb2] at hlen
      simpa [PyObj.asBytesD] using hlen

theorem c7_shard_bytes_determination_witness :
    ((PyObj.bytes [5, 6]).asBytesD.length =
      (([PyObj.bytes [5, 6]] : List PyObj).headD (PyObj.bytes [])).asBytesD.length) ∧
    ((∀ p ∈ ([] : List (PyObj × PyObj)), (p.2 : PyObj).asBytesD.length =
        (PyObj.bytes [3, 4]).asBytesD.length) ∧
      (∀ p ∈ ([] : List (PyObj × PyObj)), (p.2 : PyObj).asBytesD.length =
        (PyObj.bytes [3, 4]).asBytesD.length)) :=
  ⟨c7_shard_bytes_determination.1 [PyObj.bytes [5, 6]] 1 [[5, 6]] (by decide)
      (PyObj.bytes [5, 6]) (by decide),
    c7_shard_bytes_determination.2.2 1 1 [] (PyObj.int 0) (PyObj.bytes [3, 4]) []
      [(0, [3, 4])] (by decide) (by decide)⟩

/-! ### Claim C8: error taxonomy -/

theorem length_append_pos_left (s t : String) (hs : 0 < s.length) :
    0 < (s ++ t).length := by
  rw [String.length_append]
  omega

theorem Error.message_length_pos (e : Error) : 0 < e.message.length := by
  cases e <;> simp only [Error.message] <;>
    (repeat apply length_append_pos_left) <;> decide

theorem Error.message_ne_empty (e : Error) : e.message ≠ "" := by
  intro h
  have hpos := Error.message_length_pos e
  rw [h] at hpos
  exact absurd hpos (by decide)

/-- C8: Error taxonomy: every engine-reported or locally built failure is
surfaced to the caller as one error value from which the discriminant and
a nonempty human-readable message are derived; the conversion loses
nothing (it is injective, so no error is silently downgraded); the
discriminants are exactly the five listed ones; and each of the five is
reachable from a concrete encode or decode call. -/
theorem c8_error_taxonomy :
    (∀ e : Error, Error.toPyErr e = PyErr.valueError e) ∧
    (∀ e1 e2 : Error, Error.toPyErr e1 = Error.toPyErr e2 → e1 = e2) ∧
    (∀ e : Error, e.message ≠ "") ∧
    (∀ d : Discriminant, d = .InputShapeError ∨ d = .ParameterError ∨
      d = .ShardLengthError ∨ d = .IndexError ∨ d = .InsufficientShardsError) ∧
    (encode [] 1 = .error (Error.toPyErr (.TooFewOriginalShards 0 0)) ∧
      (Error.TooFewOriginalShards 0 0).discriminant = .InputShapeError) ∧
    (encode [PyObj.bytes [1, 2]] 0 =
        .error (Error.toPyErr (.UnsupportedShardCount 1 0)) ∧
      (Error.UnsupportedShardCount 1 0).discriminant = .ParameterError) ∧
    (encode [PyObj.bytes [1, 2], PyObj.bytes [1, 2, 3, 4], PyObj.bytes [5, 6]] 1 =
        .error (Error.toPyErr (.DifferentShardSize 2 4)) ∧
      (Error.DifferentShardSize 2 4).discriminant = .ShardLengthError) ∧
    (decode 2 1 [(PyObj.int 5, PyObj.bytes [1, 2])] [(PyObj.int 0, PyObj.bytes [1, 2])] =
        .error (Error.toPyErr (.InvalidShardIndex 5 2)) ∧
      (Error.InvalidShardIndex 5 2).discriminant = .IndexError) ∧
    (decode 3 1 [(PyObj.int 0, PyObj.bytes [1, 2])] [] =
        .error (Error.toPyErr (.NotEnoughShards 3 1 0)) ∧
      (Error.NotEnoughShards 3 1 0).discriminant = .InsufficientShardsError) := by
  refine ⟨fun e => rfl, ?_, Error.message_ne_empty, ?_, ⟨by decide, rfl⟩,
    ⟨by decide, rfl⟩, ⟨by decide, rfl⟩, ⟨by decide, rfl⟩, ⟨by decide, rfl⟩⟩
  · intro e1 e2 h
    simpa [Error.toPyErr] using h
  · intro d
    cases d
    · exact Or.inl rfl
    · exact Or.inr (Or.inl rfl)
    · exact Or.inr (Or.inr (Or.inl rfl))
    · exact Or.inr (Or.inr (Or.inr (Or.inl rfl)))
    · exact Or.inr (Or.inr (Or.inr (Or.inr rfl)))

theorem c8_error_taxonomy_witness :
    Error.DuplicateShardIndex 3 = Error.DuplicateShardIndex 3 ∧
    (Discriminant.IndexError = .InputShapeError ∨
      Discriminant.IndexError = .ParameterError ∨
      Discriminant.IndexError = .ShardLengthError ∨
      Discriminant.IndexError = .IndexError ∨
      Discriminant.IndexError = .InsufficientShardsError) :=
  ⟨c8_error_taxonomy.2.1 (.DuplicateShardIndex 3) (.DuplicateShardIndex 3) (by rfl),
    c8_error_taxonomy.2.2.2.1 Discriminant.IndexError⟩

/-! ### The interpolation bridge: the numeric evaluator of the model
engine agrees with the unique low-degree polynomial through its points -/

theorem interpEvalF_eq_eval (pts : List (F × F)) (x : F)
    (hnd : (pts.map Prod.fst).Nodup) (f : Polynomial F)
    (hdeg : f.degree < (pts.length : WithBot Nat))
    (hval : ∀ p ∈ pts, Polynomial.eval p.1 f = p.2) :
    interpEvalF pts x = Polynomial.eval x f := by
  classical
  have hv : Function.Injective (fun m : Fin pts.length => (pts.get m).1) := by
    have hg := List.nodup_iff_injective_get.mp hnd
    intro a b hab
    have ha : (List.map Prod.fst pts).get ⟨a.1, by simpa using a.2⟩ =
        (pts.get a).1 := by
      simp [List.get_eq_getElem, List.getElem_map]
    have hb : (List.map Prod.fst pts).get ⟨b.1, by simpa using b.2⟩ =
        (pts.get b).1 := by
      simp [List.get_eq_getElem, List.getElem_map]
    have hab2 : (pts.get a).1 = (pts.get b).1 := hab
    have := hg (ha.trans (hab2.trans hb.symm))
    exact Fin.ext (by simpa using congrArg Fin.val this)
  have hvs : Set.InjOn (fun m : Fin pts.length => (pts.get m).1)
      ((Finset.univ : Finset (Fin pts.length)) : Set (Fin pts.length)) := hv.injOn
  have hdeg2 : f.degree <
      (((Finset.univ : Finset (Fin pts.length)).card : Nat) : WithBot Nat) := by
    simpa [Finset.card_univ, Fintype.card_fin] using hdeg
  have heval : ∀ m ∈ (Finset.univ : Finset (Fin pts.length)),
      Polynomial.eval ((fun m : Fin pts.length => (pts.get m).1) m) f =
        (fun m : Fin pts.length => (pts.get m).2) m := by
    intro m _
    exact hval (pts.get m) (List.get_mem pts m.1 m.2)
  have hfi : f = Lagrange.interpolate Finset.univ
      (fun m : Fin pts.length => (pts.get m).1)
      (fun m : Fin pts.length => (pts.get m).2) :=
    Lagrange.eq_interpolate_of_eval_eq
      (fun m : Fin pts.length => (pts.get m).2) hvs hdeg2 heval
  rw [hfi, Lagrange.interpolate_apply, Polynomial.eval_finset_sum]
  unfold interpEvalF
  apply Finset.sum_congr rfl
  intro m _
  rw [Polynomial.eval_mul, Polynomial.eval_C]
  congr 1
  have hins := Finset.mul_prod_erase Finset.univ
    (fun k : Fin pts.length => if k = m then (1 : F)
      else (x - (pts.get k).1) * ((pts.get m).1 - (pts.get k).1)⁻¹)
    (Finset.mem_univ m)
  simp only at hins
  simp only [if_true, one_mul] at hins
  rw [← hins]
  rw [show Lagrange.basis Finset.univ (fun m : Fin pts.length => (pts.get m).1) m =
    ∏ j ∈ Finset.univ.erase m,
      Lagrange.basisDivisor ((pts.get m).1) ((pts.get j).1) from rfl]
  rw [Polynomial.eval_prod]
  apply Finset.prod_congr rfl
  intro j hj
  rw [if_neg (Finset.mem_erase.mp hj).1]
  simp only [Lagrange.basisDivisor, Polynomial.eval_mul, Polynomial.eval_C,
    Polynomial.eval_sub, Polynomial.eval_X]
  ring

/-! ### Field embedding helpers -/

theorem natCast_inj_lt {a b : Nat} (ha : a < 65537) (hb : b < 65537)
    (h : (a : F) = (b : F)) : a = b := by
  have h2 := congrArg ZMod.val h
  rwa [ZMod.val_cast_of_lt ha, ZMod.val_cast_of_lt hb] at h2

theorem nodup_map_natCast {l : List Nat} (hl : l.Nodup)
    (hlt : ∀ a ∈ l, a < 65537) : (l.map (fun a : Nat => (a : F))).Nodup := by
  refine List.Nodup.map_on ?_ hl
  intro a ha b hb hab
  exact natCast_inj_lt (hlt a ha) (hlt b hb) hab

theorem finNodes_injOn (o : Nat) (ho : o ≤ 65536) :
    Set.InjOn (fun m : Fin o => ((m : Nat) : F))
      ((Finset.univ : Finset (Fin o)) : Set (Fin o)) := by
  intro a _ b _ hab
  have ha := a.2
  have hb := b.2
  exact Fin.ext (natCast_inj_lt (by omega) (by omega) hab)

theorem recovery_shard_getD (o sb : Nat) (S : List (List Nat)) (j t : Nat)
    (ht : t < sb) :
    (ReedSolomonEncoder.recovery_shard o sb S j).getD t 0 =
      (interpEvalF (originalPoints S o t) ((o + j : Nat) : F)).val := by
  unfold ReedSolomonEncoder.recovery_shard
  exact getD_range_map _ _ _ _ ht

/-- The numeric engine computation over the original shards is the
evaluation of the interpolation polynomial through their symbols. -/
theorem interp_originalPoints (o : Nat) (ho : o ≤ 65536)
    (S : List (List Nat)) (t : Nat) (x : F) :
    interpEvalF (originalPoints S o t) x =
      Polynomial.eval x
        (Lagrange.interpolate Finset.univ (fun m : Fin o => ((m : Nat) : F))
          (fun m : Fin o => (((S.getD m []).getD t 0 : Nat) : F))) := by
  apply interpEvalF_eq_eval
  · unfold originalPoints
    rw [List.map_map]
    have hcomp : (Prod.fst ∘ fun (i : Nat) => ((i : F), shardSymbolF S i t)) =
        fun (i : Nat) => (i : F) := rfl
    rw [hcomp]
    refine nodup_map_natCast (List.nodup_range o) ?_
    intro a ha
    rw [List.mem_range] at ha
    omega
  · have hvs := finNodes_injOn o ho
    have hd := Lagrange.degree_interpolate_lt
      (fun m : Fin o => (((S.getD m []).getD t 0 : Nat) : F)) hvs
    unfold originalPoints
    simpa [Finset.card_univ, Fintype.card_fin] using hd
  · intro p hp
    unfold originalPoints at hp
    rw [List.mem_map] at hp
    obtain ⟨i, hir, hip⟩ := hp
    rw [List.mem_range] at hir
    subst hip
    have hnode := Lagrange.eval_interpolate_at_node
      (fun m : Fin o => (((S.getD m []).getD t 0 : Nat) : F))
      (finNodes_injOn o ho) (Finset.mem_univ (⟨i, hir⟩ : Fin o))
    simpa [shardSymbolF] using hnode

/-- Core reconstruction correctness of the model engine: a decoder loaded
with any sufficient mix of original shards of S and encoder-computed
recovery shards reproduces, at every byte position, the symbol of every
original shard. -/
theorem decoder_reconstructs (o rc sb : Nat) (S : List (List Nat))
    (okeys sel : List Nat)
    (hcount : o + rc ≤ 65536)
    (hok : okeys.Nodup) (hoklt : ∀ k ∈ okeys, k < o)
    (hsel : sel.Nodup) (hsellt : ∀ j ∈ sel, j < rc)
    (htotal : o ≤ okeys.length + sel.length)
    (i t : Nat) (hi : i < o) (ht : t < sb) :
    interpEvalF (decoderPoints
      ⟨o, rc, sb, okeys.map (fun (k : Nat) => (k, S.getD k [])),
        sel.map (fun (j : Nat) =>
          (j, ReedSolomonEncoder.recovery_shard o sb S j))⟩ t)
      ((i : Nat) : F) = (((S.getD i []).getD t 0 : Nat) : F) := by
  have ho : o ≤ 65536 := by omega
  have hvs := finNodes_injOn o ho
  set P := Lagrange.interpolate Finset.univ (fun m : Fin o => ((m : Nat) : F))
    (fun m : Fin o => (((S.getD m []).getD t 0 : Nat) : F)) with hP
  have hpts : decoderPoints
      ⟨o, rc, sb, okeys.map (fun (k : Nat) => (k, S.getD k [])),
        sel.map (fun (j : Nat) =>
          (j, ReedSolomonEncoder.recovery_shard o sb S j))⟩ t =
      okeys.map (fun (k : Nat) =>
        ((k : F), (((S.getD k []).getD t 0 : Nat) : F))) ++
        sel.map (fun (j : Nat) => (((o + j : Nat) : F),
          (((ReedSolomonEncoder.recovery_shard o sb S j).getD t 0 : Nat) : F))) := by
    unfold decoderPoints
    simp only [List.map_map]
    rfl
  have hnd : (((okeys.map (fun (k : Nat) =>
        ((k : F), (((S.getD k []).getD t 0 : Nat) : F)))) ++
      sel.map (fun (j : Nat) => (((o + j : Nat) : F),
        (((ReedSolomonEncoder.recovery_shard o sb S j).getD t 0 : Nat) : F)))).map
        Prod.fst).Nodup := by
    rw [List.map_append, List.map_map, List.map_map]
    have hc1 : (Prod.fst ∘ fun (k : Nat) =>
        ((k : F), (((S.getD k []).getD t 0 : Nat) : F))) =
        fun (k : Nat) => (k : F) := rfl
    have hc2 : (Prod.fst ∘ fun (j : Nat) => (((o + j : Nat) : F),
        (((ReedSolomonEncoder.recovery_shard o sb S j).getD t 0 : Nat) : F))) =
        fun (j : Nat) => ((o + j : Nat) : F) := rfl
    rw [hc1, hc2]
    have hmm : (fun (j : Nat) => ((o + j : Nat) : F)) =
        (fun (a : Nat) => (a : F)) ∘ (fun (j : Nat) => o + j) := rfl
    rw [hmm, ← List.map_map]
    apply List.Nodup.append
    · refine nodup_map_natCast hok ?_
      intro a ha
      have := hoklt a ha
      omega
    · refine nodup_map_natCast ?_ ?_
      · refine List.Nodup.map ?_ hsel
        intro a b hab
        simpa using hab
      · intro a ha
        rw [List.mem_map] at ha
        obtain ⟨j, hj, rfl⟩ := ha
        have := hsellt j hj
        omega
    · intro z hz1 hz2
      rw [List.mem_map] at hz1 hz2
      obtain ⟨k, hk, rfl⟩ := hz1
      obtain ⟨w, hw, hzw⟩ := hz2
      rw [List.mem_map] at hw
      obtain ⟨j, hj, rfl⟩ := hw
      have hk2 := hoklt k hk
      have hj2 := hsellt j hj
      have := natCast_inj_lt (by omega) (by omega) hzw.symm
      omega
  have hdeg : P.degree <
      (((okeys.map (fun (k : Nat) =>
          ((k : F), (((S.getD k []).getD t 0 : Nat) : F)))) ++
        sel.map (fun (j : Nat) => (((o + j : Nat) : F),
          (((ReedSolomonEncoder.recovery_shard o sb S j).getD t 0 : Nat) : F)))).length :
        WithBot Nat) := by
    have hd := Lagrange.degree_interpolate_lt
      (fun m : Fin o => (((S.getD m []).getD t 0 : Nat) : F)) hvs
    have hd2 : P.degree < (o : WithBot Nat) := by
      rw [hP]
      simpa [Finset.card_univ, Fintype.card_fin] using hd
    have hlen : ((okeys.map (fun (k : Nat) =>
        ((k : F), (((S.getD k []).getD t 0 : Nat) : F)))) ++
      sel.map (fun (j : Nat) => (((o + j : Nat) : F),
        (((ReedSolomonEncoder.recovery_shard o sb S j).getD t 0 : Nat) : F)))).length =
        okeys.length + sel.length := by
      simp
    rw [hlen]
    exact lt_of_lt_of_le hd2 (by exact_mod_cast htotal)
  have hval : ∀ p ∈ (okeys.map (fun (k : Nat) =>
        ((k : F), (((S.getD k []).getD t 0 : Nat) : F)))) ++
      sel.map (fun (j : Nat) => (((o + j : Nat) : F),
        (((ReedSolomonEncoder.recovery_shard o sb S j).getD t 0 : Nat) : F))),
      Polynomial.eval p.1 P = p.2 := by
    intro p hp
    rw [List.mem_append] at hp
    rcases hp with hp | hp
    · rw [List.mem_map] at hp
      obtain ⟨k, hk, rfl⟩ := hp
      have hnode := Lagrange.eval_interpolate_at_node
        (fun m : Fin o => (((S.getD m []).getD t 0 : Nat) : F)) hvs
        (Finset.mem_univ (⟨k, hoklt k hk⟩ : Fin o))
      simpa [hP] using hnode
    · rw [List.mem_map] at hp
      obtain ⟨j, hj, rfl⟩ := hp
      rw [show (((ReedSolomonEncoder.recovery_shard o sb S j).getD t 0 : Nat) : F) =
        (((interpEvalF (originalPoints S o t) ((o + j : Nat) : F)).val : Nat) : F)
        from by rw [recovery_shard_getD o sb S j t ht]]
      rw [interp_originalPoints o ho S t ((o + j : Nat) : F), ← hP]
      exact (ZMod.natCast_rightInverse
        (Polynomial.eval ((o + j : Nat) : F) P)).symm
  rw [hpts, interpEvalF_eq_eval _ ((i : Nat) : F) hnd P hdeg hval]
  have hnode := Lagrange.eval_interpolate_at_node
    (fun m : Fin o => (((S.getD m []).getD t 0 : Nat) : F)) hvs
    (Finset.mem_univ (⟨i, hi⟩ : Fin o))
  simpa [hP] using hnode

theorem contains_eq_false_of_not_mem {l : List Nat} {a : Nat} (h : a ∉ l) :
    l.contains a = false := by
  rcases hc : l.contains a with _ | _
  · rfl
  · exact absurd (List.elem_iff.mp hc) h

/-- The original-adding loop succeeds on distinct in-range indices whose
shards all have the decoder shard size, and appends exactly the indexed
shards to the decoder state. -/
theorem foldl_addOriginalShardStep_builds (okeys : List Nat)
    (S : List (List Nat)) :
    ∀ d : ReedSolomonDecoder,
      okeys.Nodup → (∀ k ∈ okeys, k < d.original_count) →
      (∀ k ∈ okeys, (S.getD k []).length = d.shard_bytes) →
      (∀ k ∈ okeys, k ∉ d.originals.map Prod.fst) →
      (okeys.map (fun (k : Nat) =>
          (PyObj.int k, PyObj.bytes (S.getD k [])))).foldlM
          addOriginalShardStep d =
        .ok ⟨d.original_count, d.recovery_count, d.shard_bytes,
          d.originals ++ okeys.map (fun (k : Nat) => (k, S.getD k [])),
          d.recoveries⟩ := by
  induction okeys with
  | nil =>
    intro d _ _ _ _
    simp only [List.map_nil, List.foldlM_nil, List.append_nil]
    rfl
  | cons k rest ih =>
    intro d hnd hlt hlen hnotin
    rw [List.map_cons, List.foldlM_cons]
    have hcf : ((d.originals.map Prod.fst).contains k) = false :=
      contains_eq_false_of_not_mem (hnotin k (by simp))
    have hstep : addOriginalShardStep d (PyObj.int k, PyObj.bytes (S.getD k [])) =
        .ok ⟨d.original_count, d.recovery_count, d.shard_bytes,
          d.originals ++ [(k, S.getD k [])], d.recoveries⟩ := by
      unfold addOriginalShardStep
      simp only [PyObj.extractNat, PyObj.downcastBytes, except_ok_bind]
      unfold ReedSolomonDecoder.add_original_shard
      rw [if_neg (by
        have := hlt k (by simp)
        omega)]
      rw [if_neg (by rw [hcf]; exact Bool.false_ne_true)]
      rw [if_neg (by
        have := hlen k (by simp)
        omega)]
      rfl
    rw [hstep, except_ok_bind]
    have hnd2 := (List.nodup_cons.mp hnd).2
    have hknotin := (List.nodup_cons.mp hnd).1
    have ih2 := ih ⟨d.original_count, d.recovery_count, d.shard_bytes,
        d.originals ++ [(k, S.getD k [])], d.recoveries⟩ hnd2
      (fun k2 hk2 => hlt k2 (List.mem_cons_of_mem _ hk2))
      (fun k2 hk2 => hlen k2 (List.mem_cons_of_mem _ hk2))
      (by
        intro k2 hk2
        simp only [List.map_append, List.mem_append]
        rintro (hmem | hmem)
        · exact hnotin k2 (List.mem_cons_of_mem _ hk2) hmem
        · simp at hmem
          subst hmem
          exact hknotin hk2)
    rw [ih2]
    simp

theorem except_mapError_ok_eq {ε δ α : Type} (f : ε → δ) (a : α) :
    (Except.ok a : Except ε α).mapError f = .ok a := rfl

/-- The recovery-adding loop succeeds on distinct in-range indices whose
shards all have the decoder shard size, and appends exactly the indexed
shards to the decoder state. -/
theorem foldl_addRecoveryShardStep_builds (sel : List Nat)
    (Rsh : Nat → List Nat) :
    ∀ d : ReedSolomonDecoder,
      sel.Nodup → (∀ j ∈ sel, j < d.recovery_count) →
      (∀ j ∈ sel, (Rsh j).length = d.shard_bytes) →
      (∀ j ∈ sel, j ∉ d.recoveries.map Prod.fst) →
      (sel.map (fun (j : Nat) => (PyObj.int j, PyObj.bytes (Rsh j)))).foldlM
          addRecoveryShardStep d =
        .ok ⟨d.original_count, d.recovery_count, d.shard_bytes,
          d.originals, d.recoveries ++ sel.map (fun (j : Nat) => (j, Rsh j))⟩ := by
  induction sel with
  | nil =>
    intro d _ _ _ _
    simp only [List.map_nil, List.foldlM_nil, List.append_nil]
    rfl
  | cons j rest ih =>
    intro d hnd hlt hlen hnotin
    rw [List.map_cons, List.foldlM_cons]
    have hcf : ((d.recoveries.map Prod.fst).contains j) = false :=
      contains_eq_false_of_not_mem (hnotin j (by simp))
    have hstep : addRecoveryShardStep d (PyObj.int j, PyObj.bytes (Rsh j)) =
        .ok ⟨d.original_count, d.recovery_count, d.shard_bytes,
          d.originals, d.recoveries ++ [(j, Rsh j)]⟩ := by
      unfold addRecoveryShardStep
      simp only [PyObj.extractNat, PyObj.downcastBytes, except_ok_bind]
      unfold ReedSolomonDecoder.add_recovery_shard
      rw [if_neg (by
        have := hlt j (by simp)
        omega)]
      rw [if_neg (by rw [hcf]; exact Bool.false_ne_true)]
      rw [if_neg (by
        have := hlen j (by simp)
        omega)]
      rfl
    rw [hstep, except_ok_bind]
    have hnd2 := (List.nodup_cons.mp hnd).2
    have hknotin := (List.nodup_cons.mp hnd).1
    have ih2 := ih ⟨d.original_count, d.recovery_count, d.shard_bytes,
        d.originals, d.recoveries ++ [(j, Rsh j)]⟩ hnd2
      (fun j2 hj2 => hlt j2 (List.mem_cons_of_mem _ hj2))
      (fun j2 hj2 => hlen j2 (List.mem_cons_of_mem _ hj2))
      (by
        intro j2 hj2
        simp only [List.map_append, List.mem_append]
        rintro (hmem | hmem)
        · exact hnotin j2 (List.mem_cons_of_mem _ hj2) hmem
        · simp at hmem
          subst hmem
          exact hknotin hj2)
    rw [ih2]
    simp

theorem ReedSolomonDecoder.add_recovery_shard_builds (d : ReedSolomonDecoder)
    (idx : Nat) (shard : List Nat) (h1 : idx < d.recovery_count)
    (h2 : idx ∉ d.recoveries.map Prod.fst) (h3 : shard.length = d.shard_bytes) :
    d.add_recovery_shard idx shard = .ok ⟨d.original_count, d.recovery_count,
      d.shard_bytes, d.originals, d.recoveries ++ [(idx, shard)]⟩ := by
  unfold ReedSolomonDecoder.add_recovery_shard
  rw [if_neg (by omega)]
  rw [if_neg (by rw [contains_eq_false_of_not_mem h2]; exact Bool.false_ne_true)]
  rw [if_neg (by omega)]

theorem ReedSolomonDecoder.decode_builds (d : ReedSolomonDecoder)
    (h : d.original_count ≤ d.originals.length + d.recoveries.length) :
    d.decode = .ok (((List.range d.original_count).filter
        (fun i => !((d.originals.map Prod.fst).contains i))).map
      (fun (i : Nat) => (i, (List.range d.shard_bytes).map
        (fun t => (interpEvalF (decoderPoints d t) (i : F)).val)))) := by
  unfold ReedSolomonDecoder.decode
  rw [if_neg (by omega)]

/-! ### Claim C1: round-trip correctness -/

/-- C1: Round-trip correctness: for supported parameters, if encoding the
byte shards S yields recovery shards R, then decoding from the remaining
originals (any loss of at most recovery_count shards) together with any
covering subset of R of size at least one returns exactly the missing
original shards, byte-identical to their values in S. -/
theorem c1_round_trip
    (S : List (List Nat)) (recovery_count : Nat) (R : List (List Nat))
    (okeys sel : List Nat)
    (h1 : 1 ≤ S.length) (h2 : 1 ≤ recovery_count)
    (hsup : supports S.length recovery_count = true)
    (hbyte : ∀ s ∈ S, ∀ b ∈ s, b < 256)
    (henc : encode (S.map PyObj.bytes) recovery_count = .ok R)
    (hoknd : okeys.Nodup) (hoklt : ∀ i ∈ okeys, i < S.length)
    (hloss : S.length - okeys.length ≤ recovery_count)
    (hselnd : sel.Nodup) (hsellt : ∀ j ∈ sel, j < recovery_count)
    (hcover : S.length - okeys.length ≤ sel.length)
    (hsel1 : 1 ≤ sel.length) :
    decode S.length recovery_count
      (okeys.map (fun (i : Nat) => (PyObj.int i, PyObj.bytes (S.getD i []))))
      (sel.map (fun (j : Nat) => (PyObj.int j, PyObj.bytes (R.getD j [])))) =
      .ok (((List.range S.length).filter (fun i => !(okeys.contains i))).map
        (fun (i : Nat) => (i, S.getD i []))) := by
  obtain ⟨first, rest0, hdata, hsupE, hsb0, hsb1, hlenall, hR⟩ := encode_ok_inv henc
  have hdl : (S.map PyObj.bytes).length = S.length := by simp
  rw [hdl] at hsupE hR
  have hSmap : (S.map PyObj.bytes).map PyObj.asBytesD = S := by
    simp only [List.map_map]
    have hco : (PyObj.asBytesD ∘ PyObj.bytes) = id := rfl
    rw [hco, List.map_id]
  rw [hSmap] at hR
  have hslen : ∀ s ∈ S, s.length = first.length := by
    intro s hs
    obtain ⟨b, hb, hbl⟩ := hlenall (PyObj.bytes s) (List.mem_map_of_mem _ hs)
    injection hb with hb2
    rw [hb2]
    exact hbl
  have hsup2 : S.length + recovery_count ≤ 65536 := by
    unfold ReedSolomonEncoder.supports at hsupE
    simp only [Bool.and_eq_true, decide_eq_true_eq] at hsupE
    exact hsupE.2
  have hgetmem : ∀ k : Nat, k < S.length → S.getD k [] ∈ S := by
    intro k hk
    rw [List.getD_eq_getElem _ _ hk]
    exact List.getElem_mem hk
  have hRlen : ∀ j : Nat, j < recovery_count →
      (R.getD j []).length = first.length := by
    intro j hj
    rw [hR, getD_range_map _ _ _ _ hj]
    unfold ReedSolomonEncoder.recovery_shard
    simp
  by_cases hfast : okeys.length = S.length
  · have hmaplen : (okeys.map (fun (i : Nat) =>
        (PyObj.int i, PyObj.bytes (S.getD i [])))).length = S.length := by
      simp [hfast]
    unfold decode
    rw [if_pos hmaplen]
    have hmemall : ∀ i, i < S.length → i ∈ okeys := by
      intro i hir
      have hsub : okeys.toFinset ⊆ Finset.range S.length := by
        intro a ha
        rw [List.mem_toFinset] at ha
        exact Finset.mem_range.mpr (hoklt a ha)
      have hcard : (Finset.range S.length).card ≤ okeys.toFinset.card := by
        rw [Finset.card_range, List.toFinset_card_of_nodup hoknd, hfast]
      have heq := Finset.eq_of_subset_of_card_le hsub hcard
      have hmem2 : i ∈ okeys.toFinset := by
        rw [heq]
        exact Finset.mem_range.mpr hir
      rwa [List.mem_toFinset] at hmem2
    have hfilter : (List.range S.length).filter
        (fun i => !(okeys.contains i)) = [] := by
      rw [List.filter_eq_nil]
      intro a ha
      rw [List.mem_range] at ha
      simpa using hmemall a ha
    rw [hfilter, List.map_nil]
  · have hoklen : okeys.length < S.length := by
      have := length_le_of_nodup_lt hoknd hoklt
      omega
    cases sel with
    | nil => simp at hsel1
    | cons j0 selrest =>
      have hj0 : j0 < recovery_count := hsellt j0 (by simp)
      have hs2 : ReedSolomonDecoder.new S.length recovery_count
          (R.getD j0 []).length =
          .ok ⟨S.length, recovery_count, first.length, [], []⟩ := by
        rw [hRlen j0 hj0]
        unfold ReedSolomonDecoder.new
        rw [if_pos hsupE, if_neg (not_or.mpr ⟨hsb0, hsb1⟩)]
      have hs3 : (okeys.map (fun (k : Nat) =>
          (PyObj.int k, PyObj.bytes (S.getD k [])))).foldlM addOriginalShardStep
          ⟨S.length, recovery_count, first.length, [], []⟩ =
          .ok ⟨S.length, recovery_count, first.length,
            okeys.map (fun (k : Nat) => (k, S.getD k [])), []⟩ :=
        foldl_addOriginalShardStep_builds okeys S _ hoknd hoklt
          (fun k hk => hslen _ (hgetmem k (hoklt k hk)))
          (by intro k hk; simp)
      have hs5 : ReedSolomonDecoder.add_recovery_shard
          ⟨S.length, recovery_count, first.length,
            okeys.map (fun (k : Nat) => (k, S.getD k [])), []⟩ j0
          (R.getD j0 []) =
          .ok ⟨S.length, recovery_count, first.length,
            okeys.map (fun (k : Nat) => (k, S.getD k [])),
            [(j0, R.getD j0 [])]⟩ :=
        ReedSolomonDecoder.add_recovery_shard_builds _ j0 _ hj0 (by simp)
          (hRlen j0 hj0)
      have hs6 : (selrest.map (fun (j : Nat) =>
          (PyObj.int j, PyObj.bytes (R.getD j [])))).foldlM addRecoveryShardStep
          ⟨S.length, recovery_count, first.length,
            okeys.map (fun (k : Nat) => (k, S.getD k [])),
            [(j0, R.getD j0 [])]⟩ =
          .ok ⟨S.length, recovery_count, first.length,
            okeys.map (fun (k : Nat) => (k, S.getD k [])),
            (j0, R.getD j0 []) :: selrest.map (fun (j : Nat) =>
              (j, R.getD j []))⟩ :=
        foldl_addRecoveryShardStep_builds selrest (fun j => R.getD j []) _
          (List.nodup_cons.mp hselnd).2
          (fun j hj => hsellt j (List.mem_cons_of_mem _ hj))
          (fun j hj => hRlen j (hsellt j (List.mem_cons_of_mem _ hj)))
          (by
            intro j hj hmem
            simp at hmem
            exact (List.nodup_cons.mp hselnd).1 (hmem ▸ hj))
      have hs7 : (⟨S.length, recovery_count, first.length,
          okeys.map (fun (k : Nat) => (k, S.getD k [])),
          (j0, R.getD j0 []) :: selrest.map (fun (j : Nat) =>
            (j, R.getD j []))⟩ : ReedSolomonDecoder).decode =
          .ok (((List.range S.length).filter (fun i =>
              !(((okeys.map (fun (k : Nat) =>
                (k, S.getD k []))).map Prod.fst).contains i))).map
            (fun (i : Nat) => (i, (List.range first.length).map (fun t =>
              (interpEvalF (decoderPoints
                ⟨S.length, recovery_count, first.length,
                  okeys.map (fun (k : Nat) => (k, S.getD k [])),
                  (j0, R.getD j0 []) :: selrest.map (fun (j : Nat) =>
                    (j, R.getD j []))⟩ t) (i : F)).val)))) :=
        ReedSolomonDecoder.decode_builds _ (by
          simp only [List.length_map, List.length_cons]
          simp only [List.length_cons] at hcover
          omega)
      rw [List.map_cons]
      unfold decode
      rw [if_neg (by simpa using hfast)]
      simp only [PyObj.downcastBytes, except_ok_bind, hs2, except_mapError_ok_eq,
        hs3, PyObj.extractNat, hs5, hs6, hs7]
      have hkeys : (okeys.map (fun (k : Nat) =>
          (k, S.getD k []))).map Prod.fst = okeys := by
        rw [List.map_map]
        have hco : (Prod.fst ∘ fun (k : Nat) => (k, S.getD k [])) = id := rfl
        rw [hco, List.map_id]
      rw [hkeys]
      have hlist : ∀ i ∈ (List.range S.length).filter
          (fun i => !(okeys.contains i)),
          ((fun (i : Nat) => (i, (List.range first.length).map (fun t =>
            (interpEvalF (decoderPoints
              ⟨S.length, recovery_count, first.length,
                okeys.map (fun (k : Nat) => (k, S.getD k [])),
                (j0, R.getD j0 []) :: selrest.map (fun (j : Nat) =>
                  (j, R.getD j []))⟩ t) (i : F)).val))) i) =
          ((fun (i : Nat) => (i, S.getD i [])) i) := by
        intro i hi
        rw [List.mem_filter] at hi
        have hio : i < S.length := by
          have := hi.1
          rwa [List.mem_range] at this
        simp only [Prod.mk.injEq, true_and]
        have hrecmap : selrest.map (fun (j : Nat) => (j, R.getD j [])) =
            selrest.map (fun (j : Nat) =>
              (j, ReedSolomonEncoder.recovery_shard S.length first.length S j)) := by
          apply List.map_congr_left
          intro j hj
          rw [hR, getD_range_map _ _ _ _ (hsellt j (List.mem_cons_of_mem _ hj))]
        have hrec0 : R.getD j0 [] =
            ReedSolomonEncoder.recovery_shard S.length first.length S j0 := by
          rw [hR]
          exact getD_range_map _ _ _ _ hj0
        rw [hrecmap, hrec0]
        apply List.ext_get
        · simp only [List.length_map, List.length_range]
          exact (hslen _ (hgetmem i hio)).symm
        · intro t h1t h2t
          simp only [List.get_eq_getElem, List.getElem_map, List.getElem_range]
          have ht : t < first.length := by simpa using h1t
          have hrecon := decoder_reconstructs S.length recovery_count
            first.length S okeys (j0 :: selrest) hsup2 hoknd hoklt hselnd hsellt
            (by
              simp only [List.length_cons]
              simp only [List.length_cons] at hcover
              omega) i t hio ht
          rw [List.map_cons] at hrecon
          rw [hrecon]
          have hlt2 : t < (S.getD i []).length := by
            rw [hslen _ (hgetmem i hio)]
            exact ht
          rw [List.getD_eq_getElem _ _ hlt2]
          rw [ZMod.val_cast_of_lt]
          have hbmem : (S.getD i [])[t] ∈ S.getD i [] := List.getElem_mem hlt2
          have := hbyte _ (hgetmem i hio) _ hbmem
          omega
      rw [List.map_congr_left hlist]

theorem c1_round_trip_witness :
    decode 1 1 [] [(PyObj.int 0, PyObj.bytes [3, 4])] = .ok [(0, [3, 4])] :=
  c1_round_trip [[3, 4]] 1 [[3, 4]] [] [0] (by decide) (by decide) (by decide)
    (by decide) (by decide) (by decide) (by decide) (by decide) (by decide)
    (by decide) (by decide) (by decide)
